import Mathlib

/-!
Verification of the pyimmatcher assertion/matcher library.

This file gives a shallow embedding, in Lean 4, of the core of the
`pyimmatcher` repository:

* `src/pyimmatcher/api/results.py` — the `TestResult` algebra (basic,
  negated, all-of, any-of, none-of results) together with the exact
  failure/negated message strings it renders, including the `tabbed`
  indentation helper (Python `textwrap.indent` with the `'.  '` tab and a
  predicate that indents every line).
* `src/pyimmatcher/api/assertions.py` — the `Assertion` combinators
  (`AllOfAssertion`, `AnyOfAssertion`, `SimpleNegatedAssertion`) and the
  operator dispatch of `__and__` / `__invert__`.
* `src/pyimmatcher/basic/collections.py` — the ordered-containment search
  `_contains_all_in_order` with its helpers `_skip_until_element` and
  `_starts_with`, and the module-level convenience function
  `contains_all_in_order`.
* `src/pyimmatcher/basic/core.py` — `HasPropertyThat.__invert__`, which
  returns the `NotImplemented` sentinel.
* `src/pyimmatcher/test.py` — the `Tester` facade (`__call__`, `all`,
  `any`, `none`, `_failure`), with Python exceptions modelled by an
  `Except` error channel.

Python sequences are modelled as `List`, Python `==`/`!=` by decidable
equality, lazily formatted messages by the strings they would render
(they are pure, so this is faithful), and raised exceptions by
`Except PyError`.  Mutation in `AllOfAssertion.__and__` (which extends
`self.assertions` in place and returns `self`) is modelled by the value
the expression evaluates to.
-/

/-- `tab = '.  '` from `results.py`. -/
def tab : String := ".  "

/-- Character-level worker for `tabbed`: after every newline that is
followed by at least one more character, insert the tab, mirroring
`textwrap.indent(s, tab, lambda _: True)`, which prefixes every line of
the string (a trailing newline does not open a new line). -/
def indentChars : List Char → List Char
  | [] => []
  | c :: rest =>
    if c = '\n' then
      match rest with
      | [] => ['\n']
      | r :: rs => '\n' :: (tab.data ++ indentChars (r :: rs))
    else c :: indentChars rest

/-- `tabbed(not_tabbed)` from `results.py`: indent every line with `tab`. -/
def tabbed (s : String) : String :=
  match s.data with
  | [] => ""
  | cs => ⟨tab.data ++ indentChars cs⟩

/-- Python `"\nAND ".join(strings)`, used by `MultiTestResult`. -/
def joinAnd : List String → String
  | [] => ""
  | [s] => s
  | s :: rest => s ++ "\nAND " ++ joinAnd rest

/-- The `TestResult` class hierarchy of `results.py`.  `basic` is
`BasicResult` (with its two lazily-rendered messages given by the strings
they render), `negated` is `NegatedResult`, and `allOf` / `anyOf` /
`noneOf` are the three `MultiTestResult` subclasses holding their ordered
child-result lists. -/
inductive TestResult : Type where
  | basic (passed : Bool) (failure_message : String) (negated_message : String)
  | negated (original : TestResult)
  | allOf (results : List TestResult)
  | anyOf (results : List TestResult)
  | noneOf (results : List TestResult)

mutual

/-- `TestResult.passed`: `BasicResult` stores it; `NegatedResult` negates
the original's; `AllOf` is `all(...)`, `AnyOf` is `any(...)`, `NoneOf` is
`not any(...)` over the child results. -/
def TestResult.passed : TestResult → Bool
  | .basic p _ _ => p
  | .negated r => !r.passed
  | .allOf rs => TestResult.allPassed rs
  | .anyOf rs => TestResult.anyPassedL rs
  | .noneOf rs => !(TestResult.anyPassedL rs)

/-- `all(result.passed for result in results)`. -/
def TestResult.allPassed : List TestResult → Bool
  | [] => true
  | r :: rs => r.passed && TestResult.allPassed rs

/-- `any(result.passed for result in results)`. -/
def TestResult.anyPassedL : List TestResult → Bool
  | [] => false
  | r :: rs => r.passed || TestResult.anyPassedL rs

end

/-- `TestResult.failed = not passed`. -/
def TestResult.failed (r : TestResult) : Bool := !r.passed

mutual

/-- The string rendered by `failure_message()` for each `TestResult`
variant, with the exact literals of `results.py` (note `AllOf` and
`NoneOf` have no space before the newline of their headers, while
`AnyOf` has one). -/
def TestResult.failureMessage : TestResult → String
  | .basic _ f _ => f
  | .negated r => r.negatedMessage
  | .allOf rs => "Some assertions failed:\n" ++ tabbed (joinAnd (TestResult.failedMsgs rs))
  | .anyOf rs => "Every assertion failed: \n" ++ tabbed (joinAnd (TestResult.failedMsgs rs))
  | .noneOf rs => "Some assertions passed:\n" ++ tabbed (joinAnd (TestResult.passedNegMsgs rs))

/-- The string rendered by `negated_message()` for each variant. -/
def TestResult.negatedMessage : TestResult → String
  | .basic _ _ n => n
  | .negated r => r.failureMessage
  | .allOf _ => "Every assertion passed when at least one was expected to fail"
  | .anyOf rs => "Some assertions passed: \n" ++ tabbed (joinAnd (TestResult.passedNegMsgs rs))
  | .noneOf rs => "Every assertion failed: \n" ++ tabbed (joinAnd (TestResult.failedMsgs rs))

/-- `MultiTestResult.failure_message`: the `failure_message()` of every
failed child, in order (the `"\nAND "` join is applied by the caller). -/
def TestResult.failedMsgs : List TestResult → List String
  | [] => []
  | r :: rs =>
    if r.passed then TestResult.failedMsgs rs
    else r.failureMessage :: TestResult.failedMsgs rs

/-- `MultiTestResult.negated_message`: the `negated_message()` of every
passed child, in order. -/
def TestResult.passedNegMsgs : List TestResult → List String
  | [] => []
  | r :: rs =>
    if r.passed then r.negatedMessage :: TestResult.passedNegMsgs rs
    else TestResult.passedNegMsgs rs

end

/-- `__invert__` dispatch on results: `NegatedResult` returns its
original, `AnyOfTestResult` returns a `NoneOfTestResult` over the same
children, `NoneOfTestResult` returns an `AnyOfTestResult`, and everything
else (BasicResult, AllOfTestResult) gets wrapped in a `NegatedResult`. -/
def TestResult.invert : TestResult → TestResult
  | .negated orig => orig
  | .anyOf rs => .noneOf rs
  | .noneOf rs => .anyOf rs
  | r => .negated r

/-- The module-level `negate(result)` of `results.py`: it constructs
`NegatedResult(result)` directly, with no dispatch. -/
def TestResult.negate (r : TestResult) : TestResult := .negated r

/-- Results on which `~~r` returns `r` itself: everything except a
`NegatedResult` wrapping an `AnyOf`, `NoneOf` or `Negated` result
(for those, the inner `~` dispatches to the De Morgan dual or unwraps,
so the round trip produces a structurally different result). -/
def TestResult.invertRoundTrips : TestResult → Bool
  | .negated (.anyOf _) => false
  | .negated (.noneOf _) => false
  | .negated (.negated _) => false
  | _ => true

mutual

/-- The leaf-level failure reasons of a result, collecting recursively
through failed `AllOf` children: a non-`AllOf` result contributes its own
`failure_message()`, an `AllOf` contributes the fragments of its failed
children.  This is the "failure-reason fragments" view of an `AllOf`
message, abstracting over the header/indentation added by each level. -/
def TestResult.andFrags : TestResult → List String
  | .allOf rs => TestResult.andFragsList rs
  | r => [r.failureMessage]

/-- Fragments contributed by a child list: failed children only. -/
def TestResult.andFragsList : List TestResult → List String
  | [] => []
  | r :: rs => (if r.passed then [] else r.andFrags) ++ TestResult.andFragsList rs

end

/-- The `Assertion` hierarchy of `assertions.py`.  `leaf` is an arbitrary
concrete assertion (a pure `test` function, as leaf assertions are);
`allOf` / `anyOf` are `AllOfAssertion` / `AnyOfAssertion` with their
child lists; `negatedA` is `SimpleNegatedAssertion`; `hasPropertyThat` is
`basic/core.py`'s `HasPropertyThat`, whose `test` behaviour is carried
abstractly (its attribute access is irrelevant here) but whose
`__invert__` override returns `NotImplemented`. -/
inductive Assertion (T : Type) : Type where
  | leaf (testFn : T → TestResult)
  | allOf (assertions : List (Assertion T))
  | anyOf (assertions : List (Assertion T))
  | negatedA (assertion : Assertion T)
  | hasPropertyThat (testFn : T → TestResult)

mutual

/-- `Assertion.test`: leaves run their own function; `AllOfAssertion.test`
wraps the list of (eagerly computed) child results in `AllOfTestResult`;
`AnyOfAssertion.test` in `AnyOfTestResult`; `SimpleNegatedAssertion.test`
returns `negate(self.assertion.test(actual))`. -/
def Assertion.test {T : Type} : Assertion T → T → TestResult
  | .leaf f, s => f s
  | .allOf cs, s => TestResult.allOf (Assertion.testList cs s)
  | .anyOf cs, s => TestResult.anyOf (Assertion.testList cs s)
  | .negatedA a, s => TestResult.negate (a.test s)
  | .hasPropertyThat f, s => f s

/-- `[assertion.test(actual) for assertion in assertions]`. -/
def Assertion.testList {T : Type} : List (Assertion T) → T → List TestResult
  | [], _ => []
  | c :: cs, s => c.test s :: Assertion.testList cs s

end

/-- `__and__` dispatch: `AllOfAssertion.__and__` extends its own child
list (with the other's children if the other is an `AllOfAssertion`,
else with the other itself) and evaluates to the extended `AllOf`;
every other assertion's `__and__` is the base `Assertion.__and__`,
`AllOfAssertion(self, other)`. -/
def Assertion.andOp {T : Type} : Assertion T → Assertion T → Assertion T
  | .allOf l, .allOf m => .allOf (l ++ m)
  | .allOf l, b => .allOf (l ++ [b])
  | a, b => .allOf [a, b]

/-- Whether an assertion is an `AllOfAssertion`. -/
def Assertion.isAllOf {T : Type} : Assertion T → Bool
  | .allOf _ => true
  | _ => false

/-- The possible values of the Python expression `~assertion`: a normal
assertion, the `NotImplemented` sentinel (which Python returns unchanged
from a unary operator), or an exception propagating. -/
inductive InvertOutcome (T : Type) : Type where
  | value (a : Assertion T)
  | notImplementedSentinel
  | raised (msg : String)

/-- Whether an invert outcome is a propagating exception. -/
def InvertOutcome.isRaisedB {T : Type} : InvertOutcome T → Bool
  | .raised _ => true
  | _ => false

/-- `__invert__` dispatch on assertions: `SimpleNegatedAssertion` returns
its wrapped assertion; `HasPropertyThat.__invert__` returns
`NotImplemented` (for a unary operator Python simply hands that sentinel
back to the caller — no error is raised); everything else gets wrapped by
the base `Assertion.__invert__` into `SimpleNegatedAssertion(self)`. -/
def Assertion.notOp {T : Type} : Assertion T → InvertOutcome T
  | .negatedA inner => .value inner
  | .hasPropertyThat _ => .notImplementedSentinel
  | a => .value (.negatedA a)

/-- `not_(not_(a))`, i.e. `~(~a)`: if the inner `~` produced an
assertion, apply `~` again; if it produced `NotImplemented`, the outer
`~` raises `TypeError` because `NotImplementedType` has no
`__invert__`. -/
def Assertion.notNot {T : Type} (a : Assertion T) : InvertOutcome T :=
  match a.notOp with
  | .value b => b.notOp
  | .notImplementedSentinel =>
    .raised "TypeError: bad operand type for unary ~: NotImplementedType"
  | .raised m => .raised m

/-- Exceptions raised by `test.py`. -/
inductive PyError : Type where
  | assertionError (msg : String)
  | attributeError (attr : String)
deriving DecidableEq

/-- `Tester._failure`: with a caller-supplied override message it raises
`AssertionError(msg.format(var_to_test, ...))` (the formatted template is
modelled as a function of the subject); with no override it evaluates
`result.expected()` — an attribute **no** `TestResult` class defines (the
result classes define `failure_message` / `negated_message`), so Python
raises `AttributeError` before any `AssertionError` can be built. -/
def testerFailure {T : Type} (subject : T) (_result : TestResult)
    (msg : Option (T → String)) : Except PyError Unit :=
  match msg with
  | some m => .error (.assertionError (m subject))
  | none => .error (.attributeError "expected")

/-- `Tester.__call__` (the `test_that` facade): run the matcher, and on a
failed result call `_failure`; on a passed result return normally. -/
def testerCall {T : Type} (subject : T) (matcher : Assertion T)
    (msg : Option (T → String)) : Except PyError Unit :=
  let result := matcher.test subject
  if result.failed then testerFailure subject result msg else .ok ()

/-- `Tester.all`: raise `AssertionError("Nothing is tested")` when the
matcher collection is empty, before evaluating anything; otherwise build
the `AllOfTestResult` and report failure through `_failure`. -/
def testerAll {T : Type} (subject : T) (matchers : List (Assertion T))
    (msg : Option (T → String)) : Except PyError Unit :=
  if matchers.length = 0 then .error (.assertionError "Nothing is tested")
  else
    let results := TestResult.allOf (Assertion.testList matchers subject)
    if results.failed then testerFailure subject results msg else .ok ()

/-- `Tester.any`: same empty-collection check, then `AnyOfTestResult`. -/
def testerAny {T : Type} (subject : T) (matchers : List (Assertion T))
    (msg : Option (T → String)) : Except PyError Unit :=
  if matchers.length = 0 then .error (.assertionError "Nothing is tested")
  else
    let results := TestResult.anyOf (Assertion.testList matchers subject)
    if results.failed then testerFailure subject results msg else .ok ()

/-- `Tester.none`: same empty-collection check, then `NoneOfTestResult`. -/
def testerNone {T : Type} (subject : T) (matchers : List (Assertion T))
    (msg : Option (T → String)) : Except PyError Unit :=
  if matchers.length = 0 then .error (.assertionError "Nothing is tested")
  else
    let results := TestResult.noneOf (Assertion.testList matchers subject)
    if results.failed then testerFailure subject results msg else .ok ()

/-- `_skip_until_element(seq, el)` from `collections.py`: advance past
elements `!= el` and yield the matching element together with the rest;
if the sequence runs out first, yield nothing (an empty iterator). -/
def skip_until_element {E : Type} [DecidableEq E] (xs : List E) (el : E) : List E :=
  xs.dropWhile (fun x => decide (x ≠ el))

/-- `_starts_with(super_seq, sub_seq)` from `collections.py`: after
materializing both iterators, `False` when the super-sequence is shorter,
otherwise `all(super_el == sub_el for ... in zip(super_seq, sub_seq))` —
a contiguous element-by-element comparison. -/
def starts_with {E : Type} [DecidableEq E] (superSeq subSeq : List E) : Bool :=
  if superSeq.length < subSeq.length then false
  else (superSeq.zip subSeq).all (fun p => decide (p.1 = p.2))

/-- `_contains_all_in_order(actual, first, inner_seq)` from
`collections.py`: repeatedly skip to the next element equal to `first`
(the anchor); if the tee'd iterator from the anchor `_starts_with`
`inner_seq`, return `True`; otherwise `next(iterator)` consumes the
anchor and the loop retries, and the `StopIteration` of an exhausted
iterator returns `False`.  When the skip finds no anchor the tee'd
iterator is empty, so the `_starts_with` test runs against the empty
sequence before `next` raises `StopIteration`. -/
def _contains_all_in_order {E : Type} [DecidableEq E]
    (actual : List E) (first : E) (inner_seq : List E) : Bool :=
  match hs : skip_until_element actual first with
  | [] => starts_with [] inner_seq
  | x :: rest =>
    if starts_with (x :: rest) inner_seq then true
    else _contains_all_in_order rest first inner_seq
termination_by actual.length
decreasing_by
  have key : ∀ (l : List E),
      (List.dropWhile (fun x => decide (x ≠ first)) l).length ≤ l.length := by
    intro l
    induction l with
    | nil => simp
    | cons y ys ih =>
      rw [List.dropWhile_cons]
      split
      · exact Nat.le_succ_of_le ih
      · exact Nat.le_refl _
  have key2 := key actual
  unfold skip_until_element at hs
  rw [hs] at key2
  simp only [List.length_cons] at key2
  omega

/-- The `passed` flag of `contains_all_in_order(items).test(h)`: the
module-level `contains_all_in_order(items)` constructs
`ContainsAllInOrder(items)`, whose `__init__(self, first, *inner_seq)`
therefore receives `first = items` and builds
`inner_seq = (items,)` — a one-element tuple whose sole element is the
whole sequence `items`. -/
def contains_all_in_order_passes {A : Type} [DecidableEq A]
    (items : A) (h : List A) : Bool :=
  _contains_all_in_order h items [items]

/-- `t` occurs at the front of `s` (`s` begins with the block `t`). -/
def frontBlock {E : Type} (t s : List E) : Prop := ∃ k, t ++ k = s

/-- `t` occurs at the end of `s` (`s` ends with the block `t`). -/
def tailBlock {E : Type} (t s : List E) : Prop := ∃ k, k ++ t = s

/-- `t` occurs contiguously somewhere inside `s`. -/
def containsBlock {E : Type} (t s : List E) : Prop := ∃ u v, u ++ (t ++ v) = s

theorem tailBlock_trans {E : Type} {a b c : List E}
    (h1 : tailBlock a b) (h2 : tailBlock b c) : tailBlock a c := by
  obtain ⟨k1, hk1⟩ := h1
  obtain ⟨k2, hk2⟩ := h2
  exact ⟨k2 ++ k1, by rw [List.append_assoc, hk1, hk2]⟩

theorem tailBlock_cons {E : Type} {t : List E} {x : E} {rest : List E}
    (h : tailBlock t (x :: rest)) : t = x :: rest ∨ tailBlock t rest := by
  obtain ⟨k, hk⟩ := h
  cases k with
  | nil => exact Or.inl hk
  | cons e k' =>
    right
    rw [List.cons_append] at hk
    exact ⟨k', by injection hk⟩

theorem tailBlock_tail {E : Type} (x : E) (rest : List E) :
    tailBlock rest (x :: rest) := ⟨[x], rfl⟩

theorem tailBlock_length_le {E : Type} {t s : List E}
    (h : tailBlock t s) : t.length ≤ s.length := by
  obtain ⟨k, hk⟩ := h
  have := congrArg List.length hk
  simp only [List.length_append] at this
  omega

theorem tailBlock_of_le {E : Type} {s1 s2 h : List E}
    (h1 : tailBlock s1 h) (h2 : tailBlock s2 h)
    (hle : s1.length ≤ s2.length) : tailBlock s1 s2 := by
  obtain ⟨k1, hk1⟩ := h1
  obtain ⟨k2, hk2⟩ := h2
  have heq : k1 ++ s1 = k2 ++ s2 := by rw [hk1, hk2]
  have hklen : k2.length ≤ k1.length := by
    have := congrArg List.length heq
    simp only [List.length_append] at this
    omega
  have htake : k1.take k2.length = k2 := by
    have := congrArg (List.take k2.length) heq
    rw [List.take_append_eq_append_take, List.take_append_eq_append_take] at this
    simp [Nat.sub_eq_zero_of_le hklen] at this
    exact this
  refine ⟨k1.drop k2.length, ?_⟩
  have hsplit : k2 ++ k1.drop k2.length = k1 := by
    conv_rhs => rw [← List.take_append_drop k2.length k1]
    rw [htake]
  have : (k2 ++ k1.drop k2.length) ++ s1 = k2 ++ s2 := by rw [hsplit, heq]
  rw [List.append_assoc] at this
  exact (List.append_right_inj k2).mp this

theorem containsBlock_iff {E : Type} {t s : List E} :
    containsBlock t s ↔ ∃ w, tailBlock w s ∧ frontBlock t w := by
  constructor
  · rintro ⟨u, v, huv⟩
    exact ⟨t ++ v, ⟨u, huv⟩, ⟨v, rfl⟩⟩
  · rintro ⟨w, ⟨k, hk⟩, ⟨k2, hk2⟩⟩
    exact ⟨k, k2, by rw [hk2, hk]⟩

theorem containsBlock_mem {E : Type} {a : E} {t s : List E}
    (h : containsBlock (a :: t) s) : a ∈ s := by
  obtain ⟨u, v, huv⟩ := h
  rw [← huv]
  simp

theorem containsBlock_of_tail {E : Type} {t rest s : List E}
    (h1 : containsBlock t rest) (h2 : tailBlock rest s) : containsBlock t s := by
  obtain ⟨u, v, huv⟩ := h1
  obtain ⟨k, hk⟩ := h2
  exact ⟨k ++ u, v, by rw [List.append_assoc, huv, hk]⟩

theorem skip_length_le {E : Type} [DecidableEq E] (xs : List E) (el : E) :
    (skip_until_element xs el).length ≤ xs.length := by
  unfold skip_until_element
  induction xs with
  | nil => simp
  | cons y ys ih =>
    rw [List.dropWhile_cons]
    split
    · exact Nat.le_succ_of_le ih
    · exact Nat.le_refl _

theorem skip_tailBlock {E : Type} [DecidableEq E] (xs : List E) (el : E) :
    tailBlock (skip_until_element xs el) xs :=
  ⟨xs.takeWhile (fun x => decide (x ≠ el)),
    List.takeWhile_append_dropWhile _ _⟩

theorem skip_ne_nil_of_mem {E : Type} [DecidableEq E] {xs : List E} {el : E}
    (h : el ∈ xs) : skip_until_element xs el ≠ [] := by
  unfold skip_until_element
  induction xs with
  | nil => simp at h
  | cons y ys ih =>
    rw [List.dropWhile_cons]
    split
    next hy =>
      simp only [decide_eq_true_eq] at hy
      have : el ∈ ys := by
        rcases List.mem_cons.mp h with h1 | h1
        · exact absurd h1.symm hy
        · exact h1
      exact ih this
    · simp

theorem skip_head_eq {E : Type} [DecidableEq E] {xs : List E} {el x : E}
    {rest : List E} (h : skip_until_element xs el = x :: rest) : x = el := by
  unfold skip_until_element at h
  induction xs with
  | nil => simp at h
  | cons y ys ih =>
    rw [List.dropWhile_cons] at h
    by_cases hy : (decide (y ≠ el)) = true
    · rw [if_pos hy] at h
      exact ih h
    · rw [if_neg hy] at h
      simp only [decide_eq_true_eq, Decidable.not_not] at hy
      injection h with h1 _
      rw [← h1, hy]

theorem frontBlock_cons_iff {E : Type} {a b : E} {t s : List E} :
    frontBlock (a :: t) (b :: s) ↔ a = b ∧ frontBlock t s := by
  constructor
  · rintro ⟨k, hk⟩
    rw [List.cons_append] at hk
    injection hk with h1 h2
    exact ⟨h1, ⟨k, h2⟩⟩
  · rintro ⟨rfl, ⟨k, hk⟩⟩
    exact ⟨k, by rw [List.cons_append, hk]⟩

theorem starts_with_cons {E : Type} [DecidableEq E] (b a : E) (s t : List E) :
    starts_with (b :: s) (a :: t) = (decide (b = a) && starts_with s t) := by
  by_cases h : s.length < t.length <;> by_cases hba : b = a <;>
    simp [starts_with, h, hba, Nat.succ_lt_succ_iff]

theorem starts_with_iff {E : Type} [DecidableEq E] :
    ∀ (t s : List E), starts_with s t = true ↔ frontBlock t s := by
  intro t
  induction t with
  | nil =>
    intro s
    simp [starts_with, frontBlock]
  | cons a t' ih =>
    intro s
    cases s with
    | nil =>
      constructor
      · intro h
        simp [starts_with] at h
      · rintro ⟨k, hk⟩
        simp at hk
    | cons b s' =>
      rw [starts_with_cons, frontBlock_cons_iff]
      simp only [Bool.and_eq_true, decide_eq_true_eq]
      constructor
      · rintro ⟨rfl, h2⟩
        exact ⟨rfl, (ih s').mp h2⟩
      · rintro ⟨rfl, h2⟩
        exact ⟨rfl, (ih s').mpr h2⟩

theorem contains_step_nil {E : Type} [DecidableEq E] {l : List E} {first : E}
    (inner : List E) (hs : skip_until_element l first = []) :
    _contains_all_in_order l first inner = starts_with [] inner := by
  rw [_contains_all_in_order.eq_def]
  split
  next _ => rfl
  next x rest heq =>
    rw [hs] at heq
    exact absurd heq (by simp)

theorem contains_step_cons {E : Type} [DecidableEq E] {l : List E} {first x : E}
    {rest : List E} (inner : List E)
    (hs : skip_until_element l first = x :: rest) :
    _contains_all_in_order l first inner =
      (if starts_with (x :: rest) inner then true
       else _contains_all_in_order rest first inner) := by
  rw [_contains_all_in_order.eq_def]
  split
  next heq =>
    rw [hs] at heq
    exact absurd heq (by simp)
  next x' rest' heq =>
    rw [hs] at heq
    injection heq with h1 h2
    subst h1
    subst h2
    rfl

theorem contains_eq_block {E : Type} [DecidableEq E] (first : E) (r0 : List E)
    (h : List E) :
    _contains_all_in_order h first (first :: r0) = true ↔
      containsBlock (first :: r0) h := by
  suffices main : ∀ (n : Nat) (l : List E), l.length ≤ n →
      (_contains_all_in_order l first (first :: r0) = true ↔
        containsBlock (first :: r0) l) from main h.length h (Nat.le_refl _)
  intro n
  induction n with
  | zero =>
    intro l hl
    have hnil : l = [] := by
      cases l with
      | nil => rfl
      | cons a as => simp at hl
    subst hnil
    rw [contains_step_nil _ (rfl : skip_until_element ([] : List E) first = [])]
    constructor
    · intro habs
      simp [starts_with] at habs
    · rintro ⟨u, v, huv⟩
      simp at huv
  | succ n ih =>
    intro l hl
    cases hsk : skip_until_element l first with
    | nil =>
      rw [contains_step_nil _ hsk]
      constructor
      · intro habs
        simp [starts_with] at habs
      · intro hcb
        exact absurd hsk (skip_ne_nil_of_mem (containsBlock_mem hcb))
    | cons x rest =>
      rw [contains_step_cons _ hsk]
      have htail_sk : tailBlock (x :: rest) l := by
        rw [← hsk]
        exact skip_tailBlock l first
      by_cases hsw : starts_with (x :: rest) (first :: r0) = true
      · rw [if_pos hsw]
        constructor
        · intro _
          exact containsBlock_iff.mpr
            ⟨x :: rest, htail_sk, (starts_with_iff _ _).mp hsw⟩
        · intro _
          rfl
      · rw [if_neg hsw]
        have hrest_len : rest.length ≤ n := by
          have h1 := skip_length_le l first
          rw [hsk] at h1
          simp only [List.length_cons] at h1
          omega
        rw [ih rest hrest_len]
        constructor
        · intro hcbrest
          exact containsBlock_of_tail hcbrest
            (tailBlock_trans (tailBlock_tail x rest) htail_sk)
        · intro hcb
          obtain ⟨w, hw_tail, hw_front⟩ := containsBlock_iff.mp hcb
          obtain ⟨k2, hk2⟩ := hw_front
          by_cases hlen : w.length ≤ (x :: rest).length
          · have hw_sk : tailBlock w (x :: rest) :=
              tailBlock_of_le hw_tail htail_sk hlen
            rcases tailBlock_cons hw_sk with heq | hw_rest
            · exfalso
              apply hsw
              rw [starts_with_iff]
              rw [← heq]
              exact ⟨k2, hk2⟩
            · exact containsBlock_iff.mpr ⟨w, hw_rest, ⟨k2, hk2⟩⟩
          · exfalso
            push_neg at hlen
            have hsk_w : tailBlock (x :: rest) w :=
              tailBlock_of_le htail_sk hw_tail (Nat.le_of_lt hlen)
            obtain ⟨d, hd⟩ := hsk_w
            have hd_ne : d ≠ [] := by
              intro h0
              rw [h0, List.nil_append] at hd
              rw [← hd] at hlen
              exact Nat.lt_irrefl _ hlen
            obtain ⟨e, d', rfl⟩ := List.exists_cons_of_ne_nil hd_ne
            have hew : e :: (d' ++ (x :: rest)) = first :: (r0 ++ k2) := by
              have h1 : (e :: d') ++ (x :: rest) = (first :: r0) ++ k2 :=
                hd.trans hk2.symm
              simpa using h1
            have he : e = first := by injection hew with h1 _
            obtain ⟨kw, hkw⟩ := hw_tail
            have htw : l.takeWhile (fun y => decide (y ≠ first)) ++ (x :: rest) = l := by
              rw [← hsk]
              exact List.takeWhile_append_dropWhile _ _
            have heq2 : (kw ++ (e :: d')) ++ (x :: rest)
                = l.takeWhile (fun y => decide (y ≠ first)) ++ (x :: rest) := by
              rw [List.append_assoc, hd, hkw, htw]
            have hcanc : kw ++ (e :: d')
                = l.takeWhile (fun y => decide (y ≠ first)) := by
              have hlens : (kw ++ (e :: d')).length
                  = (l.takeWhile (fun y => decide (y ≠ first))).length := by
                have h3 := congrArg List.length heq2
                simp only [List.length_append] at h3
                simp only [List.length_append]
                omega
              exact (List.append_inj heq2 hlens).1
            have hmemtw : e ∈ l.takeWhile (fun y => decide (y ≠ first)) := by
              rw [← hcanc]
              simp
            have hpred := List.mem_takeWhile_imp hmemtw
            simp only [decide_eq_true_eq] at hpred
            exact hpred he

theorem contains_234_false :
    _contains_all_in_order [1, 2, 3, 2, 4] 2 [2, 3, 4] = false := by
  have hblock : ¬ containsBlock [2, 3, 4] ([1, 2, 3, 2, 4] : List Nat) := by
    rintro ⟨u, v, huv⟩
    have hlen := congrArg List.length huv
    simp only [List.length_append, List.length_cons, List.length_nil] at hlen
    rcases u with _ | ⟨a, _ | ⟨b, _ | ⟨c, u⟩⟩⟩
    · simp at huv
    · simp at huv
    · simp at huv
    · simp only [List.length_cons] at hlen
      omega
  have hiff := contains_eq_block 2 [3, 4] [1, 2, 3, 2, 4]
  exact Bool.eq_false_iff.mpr (fun ht => hblock (hiff.mp ht))

theorem block_singleton_mem {E : Type} (a : E) (s : List E) :
    containsBlock [a] s ↔ a ∈ s := by
  constructor
  · exact containsBlock_mem
  · intro hmem
    obtain ⟨u, v, huv⟩ := List.append_of_mem hmem
    exact ⟨u, v, by rw [huv]; simp⟩

theorem testList_eq_map {T : Type} (cs : List (Assertion T)) (s : T) :
    Assertion.testList cs s = cs.map (fun c => c.test s) := by
  induction cs with
  | nil => rfl
  | cons c cs ih => simp [Assertion.testList, ih]

theorem testList_append {T : Type} (l m : List (Assertion T)) (s : T) :
    Assertion.testList (l ++ m) s
      = Assertion.testList l s ++ Assertion.testList m s := by
  induction l with
  | nil => rfl
  | cons c cs ih => simp [Assertion.testList, ih]

theorem allPassed_append (u v : List TestResult) :
    TestResult.allPassed (u ++ v)
      = (TestResult.allPassed u && TestResult.allPassed v) := by
  induction u with
  | nil => simp [TestResult.allPassed]
  | cons r rs ih => simp [TestResult.allPassed, ih, Bool.and_assoc]

theorem andOp_test_passed {T : Type} (X Y : Assertion T) (s : T) :
    ((X.andOp Y).test s).passed = ((X.test s).passed && (Y.test s).passed) := by
  cases X <;> cases Y <;>
    simp [Assertion.andOp, Assertion.test, Assertion.testList, testList_append,
      TestResult.negate, TestResult.passed, TestResult.allPassed,
      allPassed_append, Bool.and_assoc]

theorem andFragsList_append (u v : List TestResult) :
    TestResult.andFragsList (u ++ v)
      = TestResult.andFragsList u ++ TestResult.andFragsList v := by
  induction u with
  | nil => rfl
  | cons r rs ih => simp [TestResult.andFragsList, ih, List.append_assoc]

theorem andFragsList_of_allPassed {rs : List TestResult}
    (h : TestResult.allPassed rs = true) : TestResult.andFragsList rs = [] := by
  induction rs with
  | nil => rfl
  | cons r rs ih =>
    rw [TestResult.allPassed, Bool.and_eq_true] at h
    simp [TestResult.andFragsList, h.1, ih h.2]

theorem if_passed_andFragsList (rs : List TestResult) :
    (if (TestResult.allOf rs).passed = true then ([] : List String)
     else TestResult.andFragsList rs) = TestResult.andFragsList rs := by
  by_cases h : TestResult.allPassed rs = true
  · simp [TestResult.passed, h, andFragsList_of_allPassed h]
  · simp [TestResult.passed, h]

theorem andOp_test_frags {T : Type} (X Y : Assertion T) (s : T) :
    TestResult.andFrags ((X.andOp Y).test s)
      = (if (X.test s).passed = true then []
         else TestResult.andFrags (X.test s))
        ++ (if (Y.test s).passed = true then []
            else TestResult.andFrags (Y.test s)) := by
  cases X <;> cases Y <;>
    simp [Assertion.andOp, Assertion.test, Assertion.testList, testList_append,
      TestResult.negate, TestResult.andFrags, TestResult.andFragsList,
      andFragsList_append, if_passed_andFragsList]

theorem if_passed_andOp_frags {T : Type} (X Y : Assertion T) (s : T) :
    (if ((X.andOp Y).test s).passed = true then ([] : List String)
     else TestResult.andFrags ((X.andOp Y).test s))
      = TestResult.andFrags ((X.andOp Y).test s) := by
  cases X <;> cases Y <;>
    simp only [Assertion.andOp, Assertion.test, TestResult.andFrags,
      if_passed_andFragsList]

theorem invert_invert_passed (r : TestResult) :
    ((r.invert).invert).passed = r.passed := by
  cases r with
  | basic p f n => rfl
  | allOf rs => rfl
  | anyOf rs => rfl
  | noneOf rs => rfl
  | negated x =>
    cases x <;> simp [TestResult.invert, TestResult.passed, Bool.not_not]

theorem invert_invert_of_roundTrips {r : TestResult}
    (h : r.invertRoundTrips = true) : (r.invert).invert = r := by
  cases r with
  | basic p f n => rfl
  | allOf rs => rfl
  | anyOf rs => rfl
  | noneOf rs => rfl
  | negated x =>
    cases x with
    | basic p f n => rfl
    | allOf rs => rfl
    | anyOf rs => simp [TestResult.invertRoundTrips] at h
    | noneOf rs => simp [TestResult.invertRoundTrips] at h
    | negated y => simp [TestResult.invertRoundTrips] at h

theorem notOp_notOp_behaves {T : Type} {A B C : Assertion T}
    (h1 : A.notOp = .value B) (h2 : B.notOp = .value C) (s : T) :
    (C.test s).passed = (A.test s).passed ∧
    (C.test s).failureMessage = (A.test s).failureMessage ∧
    (C.test s).negatedMessage = (A.test s).negatedMessage := by
  cases A with
  | leaf f =>
    simp only [Assertion.notOp] at h1
    injection h1 with h1
    subst h1
    simp only [Assertion.notOp] at h2
    injection h2 with h2
    subst h2
    exact ⟨rfl, rfl, rfl⟩
  | allOf cs =>
    simp only [Assertion.notOp] at h1
    injection h1 with h1
    subst h1
    simp only [Assertion.notOp] at h2
    injection h2 with h2
    subst h2
    exact ⟨rfl, rfl, rfl⟩
  | anyOf cs =>
    simp only [Assertion.notOp] at h1
    injection h1 with h1
    subst h1
    simp only [Assertion.notOp] at h2
    injection h2 with h2
    subst h2
    exact ⟨rfl, rfl, rfl⟩
  | hasPropertyThat f =>
    simp only [Assertion.notOp] at h1
    exact InvertOutcome.noConfusion h1
  | negatedA inner =>
    simp only [Assertion.notOp] at h1
    injection h1 with h1
    subst h1
    cases inner with
    | leaf f =>
      simp only [Assertion.notOp] at h2
      injection h2 with h2
      subst h2
      exact ⟨rfl, rfl, rfl⟩
    | allOf cs =>
      simp only [Assertion.notOp] at h2
      injection h2 with h2
      subst h2
      exact ⟨rfl, rfl, rfl⟩
    | anyOf cs =>
      simp only [Assertion.notOp] at h2
      injection h2 with h2
      subst h2
      exact ⟨rfl, rfl, rfl⟩
    | hasPropertyThat f =>
      simp only [Assertion.notOp] at h2
      exact InvertOutcome.noConfusion h2
    | negatedA y =>
      simp only [Assertion.notOp] at h2
      injection h2 with h2
      subst h2
      refine ⟨?_, ?_, ?_⟩
      · simp [Assertion.test, TestResult.negate, TestResult.passed, Bool.not_not]
      · simp [Assertion.test, TestResult.negate, TestResult.failureMessage,
          TestResult.negatedMessage]
      · simp [Assertion.test, TestResult.negate, TestResult.failureMessage,
          TestResult.negatedMessage]

/-- C1 (counterexample): the claim says `_contains_all_in_order` decides
gap-allowing subsequence containment and must in particular return `true`
for haystack `[1,2,3,2,4]` and needle `[2,3,4]`.  The needle is indeed a
subsequence (with gaps) of the haystack, yet the function returns
`false`, because `_starts_with` demands a contiguous match from each
anchor. -/
theorem c1_counterexample :
    _contains_all_in_order [1, 2, 3, 2, 4] 2 [2, 3, 4] = false ∧
    List.Sublist [2, 3, 4] [1, 2, 3, 2, 4] :=
  ⟨contains_234_false, by decide⟩

/-- C1 (amended): for every haystack and non-empty needle (whose head is
the anchor element `first`), `_contains_all_in_order` returns true iff
the needle occurs as a *contiguous* block of the haystack — the indices
`i_1 < ... < i_k` exist but must be consecutive, gaps in the haystack are
not allowed between matched positions; in particular for haystack
`[1,2,3,2,4]` and needle `[2,3,4]` it returns `false`. -/
theorem c1_contains_contiguous {E : Type} [DecidableEq E]
    (h : List E) (first : E) (r0 : List E) :
    (_contains_all_in_order h first (first :: r0) = true ↔
      containsBlock (first :: r0) h) ∧
    _contains_all_in_order [1, 2, 3, 2, 4] 2 [2, 3, 4] = false :=
  ⟨contains_eq_block first r0 h, contains_234_false⟩

/-- C1 (witness): the amended characterization evaluated at a concrete
haystack and needle. -/
theorem c1_witness :
    _contains_all_in_order [9, 8, 7] 8 [8, 7] = true :=
  (c1_contains_contiguous [9, 8, 7] 8 [7]).1.mpr ⟨[9], [], rfl⟩

/-- C2: for all assertions `A`, `B`, `C` and every subject, the results
of `(A & B) & C`, `A & (B & C)` and `AllOfAssertion(A, B, C)` have the
same `passed` value and the same failure-reason fragments (the leaf
failure messages collected through failed `AllOf` children — even in the
same order), because `AllOfAssertion.__and__` flattens instead of
nesting. -/
theorem c2_and_flattening {T : Type} (A B C : Assertion T) (s : T) :
    (((A.andOp B).andOp C).test s).passed
        = ((Assertion.allOf [A, B, C]).test s).passed ∧
    ((A.andOp (B.andOp C)).test s).passed
        = ((Assertion.allOf [A, B, C]).test s).passed ∧
    TestResult.andFrags (((A.andOp B).andOp C).test s)
        = TestResult.andFrags ((Assertion.allOf [A, B, C]).test s) ∧
    TestResult.andFrags ((A.andOp (B.andOp C)).test s)
        = TestResult.andFrags ((Assertion.allOf [A, B, C]).test s) := by
  have hP3 : ((Assertion.allOf [A, B, C]).test s).passed
      = ((A.test s).passed && ((B.test s).passed && (C.test s).passed)) := by
    simp [Assertion.test, Assertion.testList, TestResult.passed,
      TestResult.allPassed]
  have hF3 : TestResult.andFrags ((Assertion.allOf [A, B, C]).test s)
      = (if (A.test s).passed = true then []
         else TestResult.andFrags (A.test s))
        ++ ((if (B.test s).passed = true then []
             else TestResult.andFrags (B.test s))
        ++ (if (C.test s).passed = true then []
            else TestResult.andFrags (C.test s))) := by
    simp [Assertion.test, Assertion.testList, TestResult.andFrags,
      TestResult.andFragsList]
  refine ⟨?_, ?_, ?_, ?_⟩
  · rw [andOp_test_passed, andOp_test_passed, hP3, Bool.and_assoc]
  · rw [andOp_test_passed, andOp_test_passed, hP3]
  · rw [andOp_test_frags (A.andOp B) C s, if_passed_andOp_frags A B s,
      andOp_test_frags A B s, hF3, List.append_assoc]
  · rw [andOp_test_frags A (B.andOp C) s, if_passed_andOp_frags B C s,
      andOp_test_frags B C s, hF3]

/-- C3: inverting an `AnyOfTestResult` yields a `NoneOfTestResult` over
the same children and vice versa; consequently `not(anyOf(children))` at
the assertion level and the `NoneOfTestResult` of the children's results
have identical `passed` on every subject, and inverting a
`NoneOfTestResult` matches the `AnyOfTestResult`. -/
theorem c3_de_morgan {T : Type} (children : List (Assertion T)) (s : T) :
    (TestResult.anyOf (Assertion.testList children s)).invert
        = TestResult.noneOf (Assertion.testList children s) ∧
    (TestResult.noneOf (Assertion.testList children s)).invert
        = TestResult.anyOf (Assertion.testList children s) ∧
    ((Assertion.negatedA (Assertion.anyOf children)).test s).passed
        = (TestResult.noneOf (Assertion.testList children s)).passed ∧
    ((TestResult.noneOf (Assertion.testList children s)).negate).passed
        = (TestResult.anyOf (Assertion.testList children s)).passed := by
  refine ⟨rfl, rfl, rfl, ?_⟩
  simp [TestResult.negate, TestResult.passed, Bool.not_not]

/-- C4 (counterexample): for the result
`r = NegatedResult(AnyOfTestResult([passing basic result]))` (exactly
what `~anyOfAssertion` produces through `negate`), `~(~r)` dispatches to
`NoneOfTestResult`, a structurally different result whose rendered
failure text also differs from `r`'s (the `AnyOf` negated header has a
space before its newline, the `NoneOf` failure header does not), so
negation is not an involution on results. -/
theorem c4_counterexample :
    ((TestResult.negated (TestResult.anyOf [TestResult.basic true "f" "n"])).invert).invert
        ≠ TestResult.negated (TestResult.anyOf [TestResult.basic true "f" "n"]) ∧
    TestResult.failureMessage
        (((TestResult.negated (TestResult.anyOf [TestResult.basic true "f" "n"])).invert).invert)
        ≠ TestResult.failureMessage
        (TestResult.negated (TestResult.anyOf [TestResult.basic true "f" "n"])) :=
  ⟨fun hcontra => TestResult.noConfusion hcontra, by decide⟩

/-- C4 (amended): double inversion of a result always preserves `passed`,
and returns the identical result whenever the result is not a
`NegatedResult` wrapping an `AnyOf`, `NoneOf` or `Negated` result; at the
assertion level, whenever `~A` and `~(~A)` are assertions (i.e. no
`NotImplemented` sentinel intervenes), `~(~A)` behaves identically to `A`
for all subjects: same `passed`, same failure text, same negated text. -/
theorem c4_involution_amended {T : Type} (r : TestResult)
    (A B C : Assertion T) (s : T) :
    ((r.invert).invert).passed = r.passed ∧
    (r.invertRoundTrips = true → (r.invert).invert = r) ∧
    (A.notOp = .value B → B.notOp = .value C →
      (C.test s).passed = (A.test s).passed ∧
      (C.test s).failureMessage = (A.test s).failureMessage ∧
      (C.test s).negatedMessage = (A.test s).negatedMessage) :=
  ⟨invert_invert_passed r, fun h => invert_invert_of_roundTrips h,
    fun h1 h2 => notOp_notOp_behaves h1 h2 s⟩

/-- C4 (witness): the amended involution at a concrete failing basic
result and a concrete leaf assertion. -/
theorem c4_witness :
    (((TestResult.basic false "f" "n").invert).invert).passed
        = (TestResult.basic false "f" "n").passed ∧
    ((TestResult.basic false "f" "n").invert).invert
        = TestResult.basic false "f" "n" ∧
    (((Assertion.leaf (fun _ => TestResult.basic false "x" "y")
        : Assertion Nat).test 0).passed
      = ((Assertion.leaf (fun _ => TestResult.basic false "x" "y")
        : Assertion Nat).test 0).passed ∧
     ((Assertion.leaf (fun _ => TestResult.basic false "x" "y")
        : Assertion Nat).test 0).failureMessage
      = ((Assertion.leaf (fun _ => TestResult.basic false "x" "y")
        : Assertion Nat).test 0).failureMessage ∧
     ((Assertion.leaf (fun _ => TestResult.basic false "x" "y")
        : Assertion Nat).test 0).negatedMessage
      = ((Assertion.leaf (fun _ => TestResult.basic false "x" "y")
        : Assertion Nat).test 0).negatedMessage) := by
  have h := c4_involution_amended (TestResult.basic false "f" "n")
    (Assertion.leaf (fun _ => TestResult.basic false "x" "y") : Assertion Nat)
    (Assertion.negatedA (Assertion.leaf (fun _ => TestResult.basic false "x" "y")))
    (Assertion.leaf (fun _ => TestResult.basic false "x" "y")) 0
  exact ⟨h.1, h.2.1 rfl, h.2.2 rfl rfl⟩

/-- C5: whenever the needle occurs contiguously at *any* anchor position
(not necessarily the first occurrence of `needle[0]`), the search
succeeds — a failed extension at an earlier anchor advances past it and
retries, so duplicated haystack values cause no false negatives; in
particular `[1,2,3,2,4]` contains `[2,4]` (anchoring on the second `2`)
and `[1,1,1,2]` contains `[1,1,2]` (anchoring on the second `1`). -/
theorem c5_backtracking :
    (∀ (E : Type) [DecidableEq E] (h : List E) (first : E) (r0 : List E),
        containsBlock (first :: r0) h →
        _contains_all_in_order h first (first :: r0) = true) ∧
    _contains_all_in_order [1, 2, 3, 2, 4] 2 [2, 4] = true ∧
    _contains_all_in_order [1, 1, 1, 2] 1 [1, 1, 2] = true := by
  refine ⟨?_, ?_, ?_⟩
  · intro E _ h first r0 hb
    exact (contains_eq_block first r0 h).mpr hb
  · exact (contains_eq_block 2 [4] [1, 2, 3, 2, 4]).mpr ⟨[1, 2, 3], [], rfl⟩
  · exact (contains_eq_block 1 [1, 2] [1, 1, 1, 2]).mpr ⟨[1], [], rfl⟩

/-- C5 (witness): the anchor-completeness applied at a concrete input. -/
theorem c5_witness : _contains_all_in_order [5, 7] 5 [5, 7] = true :=
  c5_backtracking.1 Nat [5, 7] 5 [7] ⟨[], [], rfl⟩

/-- C6: `AllOfAssertion.test` and `AnyOfAssertion.test` evaluate every
child against the same subject in list order, and the composite result's
child-result list has exactly one entry per child, at the child's
position, regardless of whether earlier children already decided the
composite's `passed`. -/
theorem c6_eager_all_children {T : Type} (cs : List (Assertion T)) (s : T) :
    (Assertion.allOf cs).test s
        = TestResult.allOf (cs.map (fun c => c.test s)) ∧
    (Assertion.anyOf cs).test s
        = TestResult.anyOf (cs.map (fun c => c.test s)) ∧
    (cs.map (fun c => c.test s)).length = cs.length ∧
    ∀ i : Nat, (cs.map (fun c => c.test s))[i]?
        = (cs[i]?).map (fun c => c.test s) := by
  refine ⟨?_, ?_, ?_, ?_⟩
  · simp [Assertion.test, testList_eq_map]
  · simp [Assertion.test, testList_eq_map]
  · simp
  · intro i
    simp

/-- C7: the `all` / `any` / `none` combinators of the `Tester` facade,
invoked with an empty matcher collection, raise
`AssertionError("Nothing is tested")` immediately — before any testing
and regardless of any override message. -/
theorem c7_empty_children_error {T : Type} (s : T) (msg : Option (T → String)) :
    testerAll s ([] : List (Assertion T)) msg
        = .error (.assertionError "Nothing is tested") ∧
    testerAny s ([] : List (Assertion T)) msg
        = .error (.assertionError "Nothing is tested") ∧
    testerNone s ([] : List (Assertion T)) msg
        = .error (.assertionError "Nothing is tested") :=
  ⟨rfl, rfl, rfl⟩

/-- C8: evaluating the `test_that` facade on a failing assertion with no
override message raises `AttributeError` (from `result.expected()`, an
attribute no `TestResult` defines) instead of the claimed
`AssertionError` carrying text built by the `FailureMessageMaker`; the
override path does raise an `AssertionError` with the formatted override,
and a passing result returns normally. -/
theorem c8_facade_attribute_error :
    testerCall (0 : Nat)
        (Assertion.leaf (fun _ => TestResult.basic false "f" "n")) none
        = .error (.attributeError "expected") ∧
    testerCall (0 : Nat)
        (Assertion.leaf (fun _ => TestResult.basic false "f" "n"))
        (some (fun _ => "custom"))
        = .error (.assertionError "custom") ∧
    testerCall (0 : Nat)
        (Assertion.leaf (fun _ => TestResult.basic true "f" "n")) none
        = .ok () :=
  ⟨rfl, rfl, rfl⟩

/-- C9 (counterexample): negating `HasPropertyThat` raises nothing at
construction time: the Python unary `~` simply hands back the
`NotImplemented` sentinel — exactly the silent non-assertion value the
claim says cannot happen. -/
theorem c9_counterexample :
    (Assertion.hasPropertyThat
        (fun _ : Nat => TestResult.basic true "f" "n")).notOp
        = InvertOutcome.notImplementedSentinel ∧
    ((Assertion.hasPropertyThat
        (fun _ : Nat => TestResult.basic true "f" "n")).notOp).isRaisedB
        = false :=
  ⟨rfl, rfl⟩

/-- C9 (amended): `~HasPropertyThat` evaluates, without raising, to the
`NotImplemented` sentinel — a non-assertion value; a `TypeError` arises
only when that sentinel is used further, e.g. when it is negated again. -/
theorem c9_negation_misuse_amended {T : Type} (f : T → TestResult) :
    (Assertion.hasPropertyThat f).notOp
        = InvertOutcome.notImplementedSentinel ∧
    ((Assertion.hasPropertyThat f).notOp).isRaisedB = false ∧
    (Assertion.hasPropertyThat f).notNot
        = InvertOutcome.raised
            "TypeError: bad operand type for unary ~: NotImplementedType" :=
  ⟨rfl, rfl, rfl⟩

/-- C10: `contains_all_in_order(items)` passes the whole sequence as the
single `first` argument, so the needle is the one-element tuple
`(items,)`: the assertion passes on a subject `h` exactly when some
element of `h` equals `items` itself — not when the elements of `items`
appear in `h` in order (e.g. subject `[[1],[2]]` fails for
`items = [1,2]` while `[[1,2],[3]]` passes). -/
theorem c10_convenience_membership {A : Type} [DecidableEq A]
    (items : A) (h : List A) :
    (contains_all_in_order_passes items h = true ↔ items ∈ h) ∧
    contains_all_in_order_passes ([1, 2] : List Nat) [[1, 2], [3]] = true ∧
    contains_all_in_order_passes ([1, 2] : List Nat) [[1], [2]] = false := by
  refine ⟨?_, ?_, ?_⟩
  · unfold contains_all_in_order_passes
    rw [contains_eq_block items [] h]
    exact block_singleton_mem items h
  · unfold contains_all_in_order_passes
    rw [contains_eq_block]
    exact (block_singleton_mem _ _).mpr (by decide)
  · unfold contains_all_in_order_passes
    apply Bool.eq_false_iff.mpr
    intro ht
    have hm := (block_singleton_mem _ _).mp
      ((contains_eq_block ([1, 2] : List Nat) [] [[1], [2]]).mp ht)
    exact absurd hm (by decide)
